import Mathlib

/-!
Shallow embedding of the checkers engine in `src/main.rs` (ur-fault/checkengine).

Modelling conventions:
* `f32` scores are modelled as `ℚ`; every claim settled here is about the
  branching / aggregation structure of the rating code, not about float
  rounding, and all concrete counterexample configurations use small integer
  weights on which `f32` arithmetic is exact.
* `u8` coordinates are modelled as `Nat`, `i8` intermediates as `Int`; all
  casts back to `Nat` happen behind the source's own bounds checks
  (`in_bounds` / `is_free`), exactly as in the Rust code.
* The 8×8 grid `[[Option<PlayersPiece>; 8]; 8]` is modelled as a flat list of
  64 squares indexed by `row * 8 + col`.
* Rust panics (`unwrap` / `expect` on `None`, `panic!`) are modelled as
  `Option.none` results where a claim depends on them, and as the harmless
  default in spots that are unreachable for the boards the function is ever
  called on (each such spot is noted at its definition).
-/

namespace Checkers

/-- Rust `enum Color`. -/
inductive Color where
  | White
  | Black
deriving DecidableEq

/-- Rust `Color::dir`: White advances along +row, Black along -row. -/
def Color.dir : Color → Int
  | .White => 1
  | .Black => -1

/-- Rust `Color::other`. -/
def Color.other : Color → Color
  | .White => .Black
  | .Black => .White

/-- Rust `enum Piece`. -/
inductive Piece where
  | Pawn
  | Queen
deriving DecidableEq

/-- Rust `struct PlayersPiece`. -/
structure PlayersPiece where
  color : Color
  piece : Piece
deriving DecidableEq

/-- Rust `struct PosUncolorPiece` (the record of a captured piece). -/
structure PosUncolorPiece where
  piece : Piece
  row : Nat
  col : Nat
deriving DecidableEq

/-- Rust `struct Move`; `from`/`to` are renamed `fromSq`/`toSq` (`from` is a
Lean keyword). -/
structure Move where
  fromSq : Nat × Nat
  toSq : Nat × Nat
  piece : Piece
  kill : Option PosUncolorPiece
  color : Color
deriving DecidableEq

/-- Rust `Move::is_upgrade`. -/
def Move.is_upgrade (m : Move) : Bool :=
  m.piece ≠ Piece.Queen && m.toSq.1 == (if m.color = Color.White then 7 else 0)

/-- Rust `Move::continues`. -/
def Move.continues (m : Move) : Bool :=
  m.kill.isSome && !m.is_upgrade

/-- Rust `Move::future_piece`. -/
def Move.future_piece (m : Move) : Piece :=
  if m.is_upgrade then Piece.Queen else m.piece

/-- Rust `Move::filter_killer_moves`. -/
def Move.filter_killer_moves (moves : List Move) : List Move :=
  moves.filter (fun m => m.kill.isSome)

/-- Rust `Move::contains_killer_move`. -/
def Move.contains_killer_move (moves : List Move) : Bool :=
  moves.any (fun m => m.kill.isSome)

/-- Rust `Move::filter_piece_moves`. -/
def Move.filter_piece_moves (piece : Piece) (moves : List Move) : List Move :=
  moves.filter (fun m => m.piece == piece)

/-- Rust `Move::contains_piece_move`. -/
def Move.contains_piece_move (piece : Piece) (moves : List Move) : Bool :=
  moves.any (fun m => m.piece == piece)

/-- Rust `struct PieceRates` (material weights), `f32` as `ℚ`. -/
structure PieceRates where
  pawn : ℚ
  queen : ℚ
deriving DecidableEq

/-- Rust `PieceRates::rate`. -/
def PieceRates.rate (r : PieceRates) : Piece → ℚ
  | .Pawn => r.pawn
  | .Queen => r.queen

/-- Rust `struct PositionRates` (positional weights). -/
structure PositionRates where
  pawn : ℚ
  queen : ℚ
deriving DecidableEq

/-- The per-axis queen centering value `|v| 5 - ((v * 2 - 7).abs() + 1) / 2`
from `PositionRates::rate`; the `i8` division has a nonnegative dividend, so
truncating and flooring division agree with `Int` division. -/
def centered (v : Int) : Int :=
  5 - (((v * 2 - 7).natAbs : Int) + 1) / 2

/-- Rust `PositionRates::rate`. The `u8` expression `8 - row` is computed in
`Int`; it underflows in Rust only for `row ≥ 9`, and every call site passes a
row of an occupied square, hence `row < 8`. -/
def PositionRates.rate (rt : PositionRates) (row col : Nat) (color : Color) (piece : Piece) : ℚ :=
  match piece with
  | .Pawn =>
    (((match color with
        | Color.White => (row : Int) + 1
        | Color.Black => 8 - (row : Int)) : Int) : ℚ) * rt.pawn
  | .Queen =>
    ((centered (row : Int) : ℚ) + (centered (col : Int) : ℚ)) * rt.queen

/-- Rust `struct KillRates` (capture-threat weights). -/
structure KillRates where
  pawn : ℚ
  queen : ℚ
deriving DecidableEq

/-- Rust `KillRates::rate`. -/
def KillRates.rate (r : KillRates) : Piece → ℚ
  | .Pawn => r.pawn
  | .Queen => r.queen

/-- Rust `struct RateConfig`. -/
structure RateConfig where
  pieces : PieceRates
  position : PositionRates
  kills : KillRates
  win : ℚ
  max_depth : Nat
deriving DecidableEq

/-- Rust `struct Board`; the 8×8 grid is flattened to 64 squares indexed by
`row * 8 + col`. -/
structure Board where
  board : List (Option PlayersPiece)
  moves : List Move
  turn : Nat
  show_moves_for : Option (Nat × Nat)
  rating : RateConfig
deriving DecidableEq

/-- Rust `Board::empty`. -/
def Board.empty (rates : RateConfig) : Board :=
  { board := List.replicate 64 none
    moves := []
    turn := 0
    show_moves_for := none
    rating := rates }

/-- Rust `self.board[row][col]` reads; out-of-range indices yield `none`
(the Rust read panics there, but every call site is bounds-guarded). -/
def Board.getRef (b : Board) (row col : Nat) : Option PlayersPiece :=
  b.board.getD (row * 8 + col) none

/-- Rust `*self.get_mut(row, col) = v` writes. -/
def Board.setSq (b : Board) (row col : Nat) (v : Option PlayersPiece) : Board :=
  { b with board := b.board.set (row * 8 + col) v }

/-- Rust `Board::new`: the grid produced by the source's nested `for i / for j`
loop of `get_mut` writes over an empty board, expressed directly as the value
each square receives (`i = idx / 8`, `j = idx % 8`). -/
def Board.new (lines : Nat) (rates : RateConfig) : Board :=
  { Board.empty rates with
    board := (List.range 64).map (fun idx =>
      let i := idx / 8
      let j := idx % 8
      if (i + j) % 2 = 0 then
        if i < lines then some ⟨Color.White, Piece.Pawn⟩
        else if 8 - lines ≤ i then some ⟨Color.Black, Piece.Pawn⟩
        else none
      else none) }

/-- Rust `Board::in_bounds`. -/
def inBounds (r c : Int) : Bool :=
  decide (0 ≤ r) && decide (r < 8) && decide (0 ≤ c) && decide (c < 8)

/-- Rust `Board::is_free`. -/
def Board.is_free (b : Board) (r c : Int) : Bool :=
  inBounds r c && (b.getRef r.toNat c.toNat).isNone

/-- One `col_offset` iteration of the pawn arm of Rust `Board::find_moves`. -/
def pawnDirMoves (b : Board) (rowu colu : Nat) (color : Color)
    (kills : Option Bool) (co : Int) : List Move :=
  let r : Int := (rowu : Int) + color.dir
  let c : Int := (colu : Int) + co
  if b.is_free r c then
    if !(kills.getD false) then
      [⟨(rowu, colu), (r.toNat, c.toNat), Piece.Pawn, none, color⟩]
    else []
  else if inBounds r c
      && (match b.getRef r.toNat c.toNat with
          | some q => decide (q.color ≠ color)
          | none => false)
      && b.is_free (r + color.dir) (c + co) then
    if kills.getD true then
      match b.getRef r.toNat c.toNat with
      | some q =>
        [⟨(rowu, colu), ((r + color.dir).toNat, (c + co).toNat), Piece.Pawn,
          some ⟨q.piece, r.toNat, c.toNat⟩, color⟩]
      | none => []
    else []
  else []

/-- The `while self.is_free` slide of the queen arm of `Board::find_moves`:
emits the non-capturing moves (when `emit`), and returns the first non-free
position reached. Fuel-indexed; a run of free squares inside the 8×8 board has
length at most 8, so fuel 16 never runs out at the call site. -/
def slideQuiet (b : Board) (fromSq : Nat × Nat) (color : Color) (emit : Bool)
    (dr dc : Int) : Nat → Int → Int → List Move × Int × Int
  | 0, r, c => ([], r, c)
  | fuel + 1, r, c =>
    if b.is_free r c then
      let rest := slideQuiet b fromSq color emit dr dc fuel (r + dr) (c + dc)
      ((if emit then [⟨fromSq, (r.toNat, c.toNat), Piece.Queen, none, color⟩] else []) ++ rest.1,
        rest.2)
    else ([], r, c)

/-- The `while self.is_free(free_row, free_col)` landing loop of the queen
capture in `Board::find_moves`; same fuel convention as `slideQuiet`. -/
def slideKills (b : Board) (fromSq : Nat × Nat) (color : Color)
    (killRec : PosUncolorPiece) (dr dc : Int) : Nat → Int → Int → List Move
  | 0, _, _ => []
  | fuel + 1, r, c =>
    if b.is_free r c then
      ⟨fromSq, (r.toNat, c.toNat), Piece.Queen, some killRec, color⟩ ::
        slideKills b fromSq color killRec dr dc fuel (r + dr) (c + dc)
    else []

/-- One `(row_offset, col_offset)` iteration of the queen arm of
`Board::find_moves`. -/
def queenDirMoves (b : Board) (rowu colu : Nat) (color : Color)
    (kills : Option Bool) (dr dc : Int) : List Move :=
  let s := slideQuiet b (rowu, colu) color (!(kills.getD false)) dr dc 16
    ((rowu : Int) + dr) ((colu : Int) + dc)
  let r := s.2.1
  let c := s.2.2
  s.1 ++
    (if inBounds r c
        && (match b.getRef r.toNat c.toNat with
            | some q => decide (q.color ≠ color)
            | none => false)
        && b.is_free (r + dr) (c + dc) then
      if kills.getD true then
        match b.getRef r.toNat c.toNat with
        | some q =>
          slideKills b (rowu, colu) color ⟨q.piece, r.toNat, c.toNat⟩ dr dc 16
            (r + dr) (c + dc)
        | none => []
      else []
    else [])

/-- Rust `Board::find_moves`. Offset iteration order is the source's:
pawns `[-1, 1]`, queens `(-1,-1), (-1,1), (1,-1), (1,1)`. -/
def Board.find_moves (b : Board) (row col : Nat) (kills : Option Bool) :
    Option (List Move) :=
  match b.getRef row col with
  | none => none
  | some p =>
    match p.piece with
    | Piece.Pawn =>
      some (pawnDirMoves b row col p.color kills (-1) ++
        pawnDirMoves b row col p.color kills 1)
    | Piece.Queen =>
      some (queenDirMoves b row col p.color kills (-1) (-1) ++
        queenDirMoves b row col p.color kills (-1) 1 ++
        queenDirMoves b row col p.color kills 1 (-1) ++
        queenDirMoves b row col p.color kills 1 1)

/-- Rust `Board::last_move`. -/
def Board.last_move (b : Board) : Option Move :=
  b.moves.getLast?

/-- Rust `Board::last_player`. -/
def Board.last_player (b : Board) : Option Color :=
  b.last_move.map (·.color)

/-- Rust `Board::current_player`. The source's
`self.find_moves(to.0, to.1, Some(true)).unwrap()` is modelled with
`Option.getD []`; the unwrap can only panic when the last move's landing
square is empty, which never holds on a board produced by a push. -/
def Board.current_player (b : Board) : Color :=
  match b.last_move with
  | none => Color.White
  | some m =>
    if m.continues && !((b.find_moves m.toSq.1 m.toSq.2 (some true)).getD []).isEmpty then
      m.color
    else
      m.color.other

/-- Rust `Board::all_players_pieces`, in the source's row-major order. -/
def Board.all_players_pieces (b : Board) (player : Color) : List (Nat × Nat × Piece) :=
  (List.range 8).flatMap (fun r =>
    (List.range 8).filterMap (fun c =>
      match b.getRef r c with
      | some p => if p.color = player then some (r, c, p.piece) else none
      | none => none))

/-- The union `flat_map` inside Rust `Board::find_all_current_moves`; the
source unwraps `find_moves`, which is `some` because the square holds a
piece, so `Option.getD []` agrees with it. -/
def Board.union_moves (b : Board) : List Move :=
  (b.all_players_pieces b.current_player).flatMap
    (fun p => (b.find_moves p.1 p.2.1 none).getD [])

/-- Rust `Board::find_all_current_moves`. -/
def Board.find_all_current_moves (b : Board) : List Move :=
  let moves := b.union_moves
  if !(Move.contains_killer_move moves) then moves
  else
    let moves := Move.filter_killer_moves moves
    if !(Move.contains_piece_move Piece.Queen moves) then moves
    else Move.filter_piece_moves Piece.Queen moves

/-- Rust `Board::is_valid_move`. -/
def Board.is_valid_move (b : Board) (m : Move) : Bool :=
  match b.getRef m.fromSq.1 m.fromSq.2 with
  | none => false
  | some piece =>
    if piece.color = b.current_player then (b.find_all_current_moves).contains m
    else false

/-- Rust `Board::winner`. -/
def Board.winner (b : Board) : Option Color :=
  if (b.all_players_pieces Color.White).length = 0 then some Color.Black
  else if (b.all_players_pieces Color.Black).length = 0 then some Color.White
  else if (b.find_all_current_moves).isEmpty then some b.current_player.other
  else none

/-- Rust `Board::push_unsafe` (renamed): clear the origin, clear the captured
square if any, write the landing square with the (possibly promoted) kind,
append the move to the history, and finally increment the turn counter iff
the just-pushed board's `current_player` differs from the mover. The source
performs these as sequential mutations of disjoint fields; they are collected
here into one record (`pushed`) plus the final turn update, which reads
`current_player` of the fully pushed state exactly as the source does. -/
def Board.push_pre (b : Board) (m : Move) : Board :=
  let cleared : List (Option PlayersPiece) :=
    match m.kill with
    | some k => (b.board.set (m.fromSq.1 * 8 + m.fromSq.2) none).set (k.row * 8 + k.col) none
    | none => b.board.set (m.fromSq.1 * 8 + m.fromSq.2) none
  { board := cleared.set (m.toSq.1 * 8 + m.toSq.2) (some ⟨m.color, m.future_piece⟩)
    moves := b.moves ++ [m]
    turn := b.turn
    show_moves_for := b.show_moves_for
    rating := b.rating }

/-- The final step of `push_unsafe`: the turn counter increments iff the
just-pushed board's `current_player` differs from the mover. -/
def Board.push_unchecked (b : Board) (m : Move) : Board :=
  { b.push_pre m with
    turn := if (b.push_pre m).current_player ≠ m.color then b.turn + 1 else b.turn }

/-- Rust `Board::push`: validity check (panic modelled as `none`), unchecked
push, then the post-move winner. -/
def Board.push (b : Board) (m : Move) : Option (Board × Option Color) :=
  if b.is_valid_move m then
    let b' := b.push_unchecked m
    some (b', b'.winner)
  else none

/-- Rust `Board::pop`; `none` models the "No moves to pop" panic. The source
decrements the turn counter (reading `current_player` on the still-pushed
state), pops the history, restores the origin to the mover's original kind,
resurrects any captured piece as the opponent's with the recorded kind, and
clears the landing square; the mutations touch disjoint fields and are
collected into one record. -/
def Board.pop (b : Board) : Option Board :=
  match b.last_move with
  | none => none
  | some m =>
    let restored : List (Option PlayersPiece) :=
      match m.kill with
      | some k => (b.board.set (m.fromSq.1 * 8 + m.fromSq.2)
          (some ⟨m.color, m.piece⟩)).set (k.row * 8 + k.col)
          (some ⟨m.color.other, k.piece⟩)
      | none => b.board.set (m.fromSq.1 * 8 + m.fromSq.2) (some ⟨m.color, m.piece⟩)
    some
      { board := restored.set (m.toSq.1 * 8 + m.toSq.2) none
        moves := b.moves.dropLast
        turn := if b.current_player ≠ m.color then b.turn - 1 else b.turn
        show_moves_for := b.show_moves_for
        rating := b.rating }

/-- The inner `rate_player` of Rust `Board::rate_current_board`. The source's
`m.kill.unwrap().piece` is modelled with a `0` fallback; it is unreachable
because every move from `find_moves(_, _, Some(true))` carries a kill. -/
def Board.rate_player (b : Board) (player : Color) : ℚ :=
  let pos := ((b.all_players_pieces player).map
    (fun p => b.rating.position.rate p.1 p.2.1 player p.2.2)).sum
  let piece := ((b.all_players_pieces player).map
    (fun p => b.rating.pieces.rate p.2.2)).sum
  let kill := ((b.all_players_pieces player).map
    (fun p =>
      match b.find_moves p.1 p.2.1 (some true) with
      | some ms => (ms.map (fun m =>
          match m.kill with
          | some k => b.rating.kills.rate k.piece
          | none => 0)).sum
      | none => 0)).sum
  pos + piece + kill

/-- Rust `Board::rate_current_board`. -/
def Board.rate_current_board (b : Board) : ℚ :=
  b.rate_player b.current_player - b.rate_player b.current_player.other

/-- The `continuation` flag computed inside `rate_inner`:
`board.current_player() == board.last_player().expect(...)`. The `false` of
the `none` arm is never consumed: `rate_inner` returns its panic marker
instead (see `Board.rate_inner`). -/
def Board.continuation (b : Board) : Bool :=
  match b.last_player with
  | some lp => decide (b.current_player = lp)
  | none => false

/-- The depth passed to the recursive `rate_inner` call for one move:
`if continuation { depth } else { depth + 1 }`. -/
def childDepth (cont : Bool) (depth : Nat) : Nat :=
  if cont then depth else depth + 1

/-- The outer factor `if continuation { 1.0 } else { -1.0 }` applied to the
negated recursive score. -/
def childSign (cont : Bool) : ℚ :=
  if cont then 1 else -1

/-- The value of Rust `.max_by(partial_cmp)` on a list of scores (`none` on an
empty list, where the source's `.expect("No moves")` panics). -/
def maxQ : List ℚ → Option ℚ
  | [] => none
  | x :: xs => some (xs.foldl max x)

/-- Rust `rate_inner` (the recursive worker of `Board::rate`), fuel-indexed.
`none` models a panic: the `last_player().expect("max_depth must be > 0")`
inside the per-move closure, or `.expect("No moves")` on an empty move list.
Fuel exhaustion returns `some 0`; it is unreachable for the fuel supplied by
`Board.rate` because every same-depth recursive step is a capture. -/
def Board.rate_inner (player : Color) : Nat → Board → Nat → Option ℚ
  | 0, _, _ => some 0
  | fuel + 1, b, depth =>
    match b.winner with
    | some w => some (if w = player then b.rating.win else -b.rating.win)
    | none =>
      if depth < b.rating.max_depth then
        ((b.find_all_current_moves).mapM (fun m =>
          match b.last_player with
          | none => none
          | some _ =>
            let cont := b.continuation
            (Board.rate_inner player fuel (b.push_unchecked m)
              (childDepth cont depth)).map
              (fun v => (-v) * childSign cont))).bind maxQ
      else some b.rate_current_board

/-- Rust `Board::rate`: `rate_inner(self, player, 0)` with enough fuel for the
whole search (each recursive step either increases `depth` or removes a piece,
so `(max_depth + 1) * 66` levels are never exhausted). -/
def Board.rate (b : Board) (player : Color) : Option ℚ :=
  Board.rate_inner player ((b.rating.max_depth + 1) * 66) b 0

/-- Rust `Iterator::max_by_key` on `(move, key)` pairs: the fold keeps the
later element when keys tie, so the LAST maximal element wins. -/
def maxByKeyLast (l : List (Move × ℚ)) : Option (Move × ℚ) :=
  l.foldl (fun acc p =>
    match acc with
    | none => some p
    | some q => if q.2 ≤ p.2 then some p else some q) none

/-- The keyed move list built by Rust `Board::find_best_move`: each legal move
is applied (`with_move_unsafe`) and keyed by `-rate(current_player)` of the
resulting position; `none` models a panic inside some `rate` call. -/
def Board.best_keyed (b : Board) : Option (List (Move × ℚ)) :=
  (b.find_all_current_moves).mapM (fun m =>
    ((b.push_unchecked m).rate (b.push_unchecked m).current_player).map
      (fun v => (m, -v)))

/-- Rust `Board::find_best_move`; `none` models the final `.unwrap()` panic on
an empty move list (or a panic inside a `rate` call). -/
def Board.find_best_move (b : Board) : Option Move :=
  b.best_keyed.bind (fun l => (maxByKeyLast l).map (·.1))

/-! ### Specification-side definitions

These follow the wording of `spec.md` (not the source) and are compared with
the source-derived definitions above in the claim theorems. -/

/-- Spec §4.2: whether the landing square `sq` still has at least one
available capture. -/
def hasCaptureFrom (b : Board) (sq : Nat × Nat) : Bool :=
  !((b.find_moves sq.1 sq.2 (some true)).getD []).isEmpty

/-- Spec §4.2 / claim C6: the derived current player — First (White) on empty
history; the last mover again if the last move was a capture that did not
promote and its landing square still threatens a capture; the other color
otherwise. -/
def specCurrentPlayer (b : Board) : Color :=
  match b.moves.getLast? with
  | none => Color.White
  | some m =>
    if m.kill.isSome && (!m.is_upgrade && hasCaptureFrom b m.toSq) then m.color
    else m.color.other

/-- Spec §4.4 / claim C7: a side with zero pieces loses; otherwise a side to
move without legal moves loses; otherwise the game continues. -/
def specWinner (b : Board) : Option Color :=
  if (b.all_players_pieces Color.White).length = 0 then some Color.Black
  else if (b.all_players_pieces Color.Black).length = 0 then some Color.White
  else if b.find_all_current_moves = [] then some b.current_player.other
  else none

/-- Spec §4.1 / claim C4, filter (a) as the claim words it: if any generated
move is a capture, all non-capturing moves are discarded (and nothing is
discarded otherwise). -/
def specCaptureFilter (l : List Move) : List Move :=
  if Move.contains_killer_move l then Move.filter_killer_moves l else l

/-- Spec §4.5 / claim C9: the per-axis symmetric distance-from-center value
for queens, written as the spec describes it (peaks at the center, decays to
the edges, symmetric per axis). -/
def specCentered (v : Int) : Int :=
  min v (7 - v) + 1

/-- Spec §4.5 / claim C9: the pawn positional value as rows advanced toward
the promotion rank, written via the distance still to travel (White promotes
on row 7, Black on row 0). -/
def specPawnAdvance (color : Color) (row : Nat) : Int :=
  8 - (match color with
    | Color.White => 7 - (row : Int)
    | Color.Black => (row : Int))

/-- Claim C9, term (2): the positional sum for `player`, parameterized by the
position weights. -/
def specPosTerm (w : PositionRates) (b : Board) (player : Color) : ℚ :=
  ((b.all_players_pieces player).map (fun p =>
    match p.2.2 with
    | Piece.Pawn => (specPawnAdvance player p.1 : ℚ) * w.pawn
    | Piece.Queen =>
      ((specCentered (p.1 : Int) + specCentered (p.2.1 : Int) : Int) : ℚ) * w.queen)).sum

/-- Claim C9, term (1): the material sum for `player`. -/
def specMaterialTerm (w : PieceRates) (b : Board) (player : Color) : ℚ :=
  ((b.all_players_pieces player).map (fun p => w.rate p.2.2)).sum

/-- Claim C9, term (3): the capture-threat sum for `player` — for each piece,
the per-kind capture weight of every capture it could make right now. -/
def specThreatTerm (w : KillRates) (b : Board) (player : Color) : ℚ :=
  ((b.all_players_pieces player).map (fun p =>
    (((b.find_moves p.1 p.2.1 (some true)).getD []).map (fun m =>
      match m.kill with
      | some k => w.rate k.piece
      | none => 0)).sum)).sum

/-- Claim C9: `score(color)` as the spec decomposes it. -/
def specScore (b : Board) (player : Color) : ℚ :=
  specMaterialTerm b.rating.pieces b player + specPosTerm b.rating.position b player +
    specThreatTerm b.rating.kills b player

/-- Claim C2 (amended): the LAST maximal element in generation order — the
last entry of the list of entries whose key is ≥ every key. -/
def lastMaxBy (l : List (Move × ℚ)) : Option (Move × ℚ) :=
  (l.filter (fun p => l.all (fun q => decide (q.2 ≤ p.2)))).getLast?

/-- Claim C8: only squares with even `row + col` carry a piece. -/
def DarkOnly (b : Board) : Prop :=
  ∀ r c : Nat, r < 8 → c < 8 → (b.getRef r c).isSome = true → (r + c) % 2 = 0

/-- Claim C5: every move of the list is a capture. -/
def AllKillers (l : List Move) : Prop :=
  ∀ m ∈ l, m.kill.isSome = true

/-- Boards reachable from `Board::new` by legal pushes and matching pops
(claim C8; a pop is "matching" when there is a pushed move to undo). -/
inductive Reachable (lines : Nat) (cfg : RateConfig) : Board → Prop
  | base : Reachable lines cfg (Board.new lines cfg)
  | push (b : Board) (m : Move) : Reachable lines cfg b →
      b.is_valid_move m = true → Reachable lines cfg (b.push_unchecked m)
  | pop (b b' : Board) : Reachable lines cfg b → b.pop = some b' →
      Reachable lines cfg b'

/-- Boards reachable by pushes alone (auxiliary for claim C8). -/
inductive PushReach (lines : Nat) (cfg : RateConfig) : Board → Prop
  | base : PushReach lines cfg (Board.new lines cfg)
  | push (b : Board) (m : Move) : PushReach lines cfg b →
      b.is_valid_move m = true → PushReach lines cfg (b.push_unchecked m)

/-- Soundness facts about a move generated by `find_moves` on square `(r, c)`
occupied by `⟨color, piece⟩`: it starts there with that color and kind, lands
on a free on-board square of the same color-class (diagonal moves preserve the
parity of `row + col`), and any recorded kill sits on an on-board square
occupied by the opponent with the recorded kind. -/
def GenOk (b : Board) (r c : Nat) (color : Color) (piece : Piece) (m : Move) : Prop :=
  m.fromSq = (r, c) ∧ m.color = color ∧ m.piece = piece ∧
  m.toSq.1 < 8 ∧ m.toSq.2 < 8 ∧
  b.getRef m.toSq.1 m.toSq.2 = none ∧
  (m.toSq.1 + m.toSq.2) % 2 = (r + c) % 2 ∧
  (∀ k, m.kill = some k → k.row < 8 ∧ k.col < 8 ∧
    b.getRef k.row k.col = some ⟨color.other, k.piece⟩)

/-! ### Concrete boards for counterexamples and witnesses -/

/-- The weight configuration of the source's `main` (depth 5). -/
def cfg1 : RateConfig :=
  { pieces := ⟨1, 3⟩, position := ⟨0, 0⟩, kills := ⟨10, 30⟩, win := 1000, max_depth := 5 }

/-- An all-zero configuration with search depth 0 (used to force score ties). -/
def cfg2 : RateConfig :=
  { pieces := ⟨0, 0⟩, position := ⟨0, 0⟩, kills := ⟨0, 0⟩, win := 0, max_depth := 0 }

/-- The quiet White move on record in `B0`'s history. -/
def wMove : Move := ⟨(1, 1), (2, 2), Piece.Pawn, none, Color.White⟩

/-- Claim C1's board: White just played the quiet `wMove`, so Black is to
move; Black's only legal move is the capture `m0`, which starts a chain
(after it Black is still to move). -/
def B0 : Board :=
  { (((Board.empty cfg1).setSq 2 2 (some ⟨Color.White, Piece.Pawn⟩)).setSq 4 4
      (some ⟨Color.White, Piece.Pawn⟩)).setSq 5 5 (some ⟨Color.Black, Piece.Pawn⟩) with
    moves := [wMove] }

/-- Black's chain-starting capture on `B0`. -/
def m0 : Move := ⟨(5, 5), (3, 3), Piece.Pawn, some ⟨Piece.Pawn, 4, 4⟩, Color.Black⟩

/-- Claim C2's board: one White pawn with two quiet moves that tie under the
all-zero weights of `cfg2`, plus one far-away Black pawn. -/
def B2 : Board :=
  ((Board.empty cfg2).setSq 2 2 (some ⟨Color.White, Piece.Pawn⟩)).setSq 7 7
    (some ⟨Color.Black, Piece.Pawn⟩)

/-- The first-generated quiet move of `B2` (column offset -1). -/
def m31 : Move := ⟨(2, 2), (3, 1), Piece.Pawn, none, Color.White⟩

/-- The second-generated quiet move of `B2` (column offset 1). -/
def m33 : Move := ⟨(2, 2), (3, 3), Piece.Pawn, none, Color.White⟩

/-- Claim C4's board: White to move with no capture anywhere, a queen with
quiet moves and a pawn with quiet moves. -/
def B4 : Board :=
  (((Board.empty cfg1).setSq 0 0 (some ⟨Color.White, Piece.Queen⟩)).setSq 4 4
    (some ⟨Color.White, Piece.Pawn⟩)).setSq 7 7 (some ⟨Color.Black, Piece.Pawn⟩)

/-- Claim C5's witness board: White to move with the capture `m5` available. -/
def B5 : Board :=
  (((Board.empty cfg1).setSq 2 2 (some ⟨Color.White, Piece.Pawn⟩)).setSq 3 3
    (some ⟨Color.Black, Piece.Pawn⟩)).setSq 7 7 (some ⟨Color.Black, Piece.Pawn⟩)

/-- White's capture on `B5`. -/
def m5 : Move := ⟨(2, 2), (4, 4), Piece.Pawn, some ⟨Piece.Pawn, 3, 3⟩, Color.White⟩

/-- A legal opening move on `Board.new 2 cfg1` (used by witnesses). -/
def mW : Move := ⟨(1, 1), (2, 0), Piece.Pawn, none, Color.White⟩

/-! ### Helper lemmas: colors, grid access, generated-move soundness -/

theorem color_eq_other {q c : Color} (h : ¬q = c) : q = c.other := by
  cases q <;> cases c <;> simp_all [Color.other]

theorem color_other_ne (c : Color) : ¬c.other = c := by
  cases c <;> simp [Color.other]

theorem is_free_iff {b : Board} {r c : Int} :
    b.is_free r c = true ↔
      ((0 ≤ r ∧ r < 8) ∧ 0 ≤ c ∧ c < 8) ∧ b.getRef r.toNat c.toNat = none := by
  simp [Board.is_free, inBounds, Option.isNone_iff_eq_none, and_assoc]

theorem inBounds_iff {r c : Int} :
    inBounds r c = true ↔ (0 ≤ r ∧ r < 8) ∧ 0 ≤ c ∧ c < 8 := by
  simp [inBounds, and_assoc]

theorem lt_length_of_getRef {b : Board} {r c : Nat} {v : PlayersPiece}
    (h : b.getRef r c = some v) : r * 8 + c < b.board.length := by
  by_contra hn
  push_neg at hn
  rw [Board.getRef, List.getD_eq_getElem?_getD, List.getElem?_eq_none hn] at h
  simp at h

theorem getElem?_of_getRef {b : Board} {r c : Nat} (h : r * 8 + c < b.board.length) :
    b.board[r * 8 + c]? = some (b.getRef r c) := by
  rw [Board.getRef, List.getD_eq_getElem?_getD, List.getElem?_eq_getElem h]
  rfl

theorem getRef_eq_of_getElem? {b : Board} {r c : Nat} {v : Option PlayersPiece}
    (h : b.board[r * 8 + c]? = some v) : b.getRef r c = v := by
  simp [Board.getRef, List.getD_eq_getElem?_getD, h]

theorem pawnDirMoves_ok {b : Board} {r c : Nat} {color : Color} {kills : Option Bool}
    {co : Int} (hco : co = -1 ∨ co = 1) :
    ∀ m ∈ pawnDirMoves b r c color kills co, GenOk b r c color Piece.Pawn m := by
  intro m hm
  have hdir : color.dir = 1 ∨ color.dir = -1 := by
    cases color <;> simp [Color.dir]
  simp only [pawnDirMoves] at hm
  split at hm
  case isTrue h1 =>
    split at hm
    case isTrue _ =>
      simp only [List.mem_singleton] at hm
      subst hm
      obtain ⟨⟨⟨hr0, hr8⟩, hc0, hc8⟩, hfree⟩ := is_free_iff.mp h1
      refine ⟨rfl, rfl, rfl, ?_, ?_, ?_, ?_, ?_⟩ <;> dsimp only
      · omega
      · omega
      · exact hfree
      · omega
      · intro k hk
        simp at hk
    case isFalse _ => simp at hm
  case isFalse h1 =>
    split at hm
    case isTrue h2 =>
      rw [Bool.and_eq_true, Bool.and_eq_true] at h2
      obtain ⟨⟨hin, henemy⟩, hfree2⟩ := h2
      obtain ⟨⟨hr0, hr8⟩, hc0, hc8⟩ := inBounds_iff.mp hin
      rcases hq : b.getRef ((r : Int) + color.dir).toNat ((c : Int) + co).toNat with _ | q
      · rw [hq] at henemy
        simp at henemy
      · rw [hq] at henemy hm
        split at hm
        case isFalse _ => simp at hm
        case isTrue _ =>
          simp only [List.mem_singleton] at hm
          subst hm
          obtain ⟨⟨⟨hr0', hr8'⟩, hc0', hc8'⟩, hfree'⟩ := is_free_iff.mp hfree2
          have hqc : q.color = color.other := color_eq_other (by simpa using henemy)
          refine ⟨rfl, rfl, rfl, ?_, ?_, ?_, ?_, ?_⟩ <;> dsimp only
          · omega
          · omega
          · exact hfree'
          · omega
          · intro k hk
            simp only [Option.some.injEq] at hk
            subst hk
            refine ⟨?_, ?_, ?_⟩ <;> dsimp only
            · omega
            · omega
            · rw [hq, ← hqc]
    case isFalse _ => simp at hm

theorem slideQuiet_ok {b : Board} {fr fc : Nat} {color : Color} {emit : Bool}
    {dr dc : Int} (hdr : dr = -1 ∨ dr = 1) (hdc : dc = -1 ∨ dc = 1) :
    ∀ (fuel : Nat) (r c : Int), (r + c) % 2 = ((fr : Int) + fc) % 2 →
      ∀ m ∈ (slideQuiet b (fr, fc) color emit dr dc fuel r c).1,
        GenOk b fr fc color Piece.Queen m := by
  intro fuel
  induction fuel with
  | zero =>
    intro r c _ m hm
    simp [slideQuiet] at hm
  | succ n ih =>
    intro r c hpar m hm
    rw [slideQuiet] at hm
    split at hm
    case isTrue h1 =>
      dsimp only at hm
      rw [List.mem_append] at hm
      rcases hm with hm | hm
      · split at hm
        case isTrue _ =>
          simp only [List.mem_singleton] at hm
          subst hm
          obtain ⟨⟨⟨hr0, hr8⟩, hc0, hc8⟩, hfree⟩ := is_free_iff.mp h1
          refine ⟨rfl, rfl, rfl, ?_, ?_, ?_, ?_, ?_⟩ <;> dsimp only
          · omega
          · omega
          · exact hfree
          · omega
          · intro k hk
            simp at hk
        case isFalse _ => simp at hm
      · exact ih (r + dr) (c + dc) (by omega) m hm
    case isFalse _ => simp at hm

theorem slideQuiet_final {b : Board} {fs : Nat × Nat} {color : Color} {emit : Bool}
    {dr dc : Int} (hdr : dr = -1 ∨ dr = 1) (hdc : dc = -1 ∨ dc = 1) :
    ∀ (fuel : Nat) (r c : Int),
      ((slideQuiet b fs color emit dr dc fuel r c).2.1 +
        (slideQuiet b fs color emit dr dc fuel r c).2.2) % 2 = (r + c) % 2 := by
  intro fuel
  induction fuel with
  | zero =>
    intro r c
    simp [slideQuiet]
  | succ n ih =>
    intro r c
    rw [slideQuiet]
    split
    case isTrue _ =>
      have := ih (r + dr) (c + dc)
      dsimp only
      omega
    case isFalse _ => rfl

theorem slideKills_ok {b : Board} {fr fc : Nat} {color : Color} {kr : PosUncolorPiece}
    {dr dc : Int} (hdr : dr = -1 ∨ dr = 1) (hdc : dc = -1 ∨ dc = 1)
    (hk : kr.row < 8 ∧ kr.col < 8 ∧ b.getRef kr.row kr.col = some ⟨color.other, kr.piece⟩) :
    ∀ (fuel : Nat) (r c : Int), (r + c) % 2 = ((fr : Int) + fc) % 2 →
      ∀ m ∈ slideKills b (fr, fc) color kr dr dc fuel r c,
        GenOk b fr fc color Piece.Queen m := by
  intro fuel
  induction fuel with
  | zero =>
    intro r c _ m hm
    simp [slideKills] at hm
  | succ n ih =>
    intro r c hpar m hm
    rw [slideKills] at hm
    split at hm
    case isTrue h1 =>
      rcases List.mem_cons.mp hm with hm | hm
      · subst hm
        obtain ⟨⟨⟨hr0, hr8⟩, hc0, hc8⟩, hfree⟩ := is_free_iff.mp h1
        refine ⟨rfl, rfl, rfl, ?_, ?_, ?_, ?_, ?_⟩ <;> dsimp only
        · omega
        · omega
        · exact hfree
        · omega
        · intro k hkk
          simp only [Option.some.injEq] at hkk
          subst hkk
          exact hk
      · exact ih (r + dr) (c + dc) (by omega) m hm
    case isFalse _ => simp at hm

theorem queenDirMoves_ok {b : Board} {r c : Nat} {color : Color} {kills : Option Bool}
    {dr dc : Int} (hdr : dr = -1 ∨ dr = 1) (hdc : dc = -1 ∨ dc = 1) :
    ∀ m ∈ queenDirMoves b r c color kills dr dc, GenOk b r c color Piece.Queen m := by
  intro m hm
  simp only [queenDirMoves] at hm
  rw [List.mem_append] at hm
  have hpar0 : (((r : Int) + dr) + ((c : Int) + dc)) % 2 = ((r : Int) + (c : Int)) % 2 := by
    omega
  rcases hm with hm | hm
  · exact slideQuiet_ok hdr hdc 16 _ _ hpar0 m hm
  · split at hm
    case isFalse _ => simp at hm
    case isTrue h2 =>
      rw [Bool.and_eq_true, Bool.and_eq_true] at h2
      obtain ⟨⟨hin, henemy⟩, hfree2⟩ := h2
      obtain ⟨⟨hr0, hr8⟩, hc0, hc8⟩ := inBounds_iff.mp hin
      split at hm
      case isFalse _ => simp at hm
      case isTrue _ =>
        rcases hq : b.getRef
            (slideQuiet b (r, c) color (!kills.getD false) dr dc 16
              ((r : Int) + dr) ((c : Int) + dc)).2.1.toNat
            (slideQuiet b (r, c) color (!kills.getD false) dr dc 16
              ((r : Int) + dr) ((c : Int) + dc)).2.2.toNat with _ | q
        · rw [hq] at henemy
          simp at henemy
        · rw [hq] at henemy hm
          have hqc : q.color = color.other := color_eq_other (by simpa using henemy)
          have hfin := @slideQuiet_final b (r, c) color (!kills.getD false) dr dc
            hdr hdc 16 ((r : Int) + dr) ((c : Int) + dc)
          refine slideKills_ok hdr hdc ?_ 16 _ _ (by omega) m hm
          refine ⟨?_, ?_, ?_⟩ <;> dsimp only
          · omega
          · omega
          · rw [hq, ← hqc]

theorem find_moves_ok {b : Board} {r c : Nat} {pp : PlayersPiece} {kills : Option Bool}
    (h : b.getRef r c = some pp) :
    ∀ m ∈ (b.find_moves r c kills).getD [], GenOk b r c pp.color pp.piece m := by
  intro m hm
  rw [Board.find_moves, h] at hm
  rcases pp with ⟨color, piece⟩
  cases piece
  case Pawn =>
    simp only [Option.getD_some, List.mem_append] at hm
    rcases hm with hm | hm
    · exact pawnDirMoves_ok (Or.inl rfl) m hm
    · exact pawnDirMoves_ok (Or.inr rfl) m hm
  case Queen =>
    simp only [Option.getD_some, List.mem_append] at hm
    rcases hm with ((hm | hm) | hm) | hm
    · exact queenDirMoves_ok (Or.inl rfl) (Or.inl rfl) m hm
    · exact queenDirMoves_ok (Or.inl rfl) (Or.inr rfl) m hm
    · exact queenDirMoves_ok (Or.inr rfl) (Or.inl rfl) m hm
    · exact queenDirMoves_ok (Or.inr rfl) (Or.inr rfl) m hm

theorem mem_all_players_pieces {b : Board} {player : Color} {r c : Nat} {p : Piece}
    (h : (r, c, p) ∈ b.all_players_pieces player) :
    r < 8 ∧ c < 8 ∧ b.getRef r c = some ⟨player, p⟩ := by
  simp only [Board.all_players_pieces, List.mem_flatMap, List.mem_filterMap,
    List.mem_range] at h
  obtain ⟨r', hr', c', hc', hmatch⟩ := h
  rcases hq : b.getRef r' c' with _ | q
  · rw [hq] at hmatch
    simp at hmatch
  · rw [hq] at hmatch
    dsimp only at hmatch
    split at hmatch
    case isTrue heq =>
      simp only [Option.some.injEq, Prod.mk.injEq] at hmatch
      obtain ⟨h1, h2, h3⟩ := hmatch
      subst h1
      subst h2
      subst h3
      refine ⟨hr', hc', ?_⟩
      rw [hq]
      cases q
      simp_all
    case isFalse _ => simp at hmatch

theorem union_moves_ok {b : Board} {m : Move} (h : m ∈ b.union_moves) :
    ∃ r c, r < 8 ∧ c < 8 ∧ b.getRef r c = some ⟨b.current_player, m.piece⟩ ∧
      GenOk b r c b.current_player m.piece m := by
  simp only [Board.union_moves, List.mem_flatMap] at h
  obtain ⟨⟨r, c, p⟩, hmem, hm⟩ := h
  obtain ⟨hr, hc, hget⟩ := mem_all_players_pieces hmem
  have hok := find_moves_ok hget m hm
  obtain ⟨h1, h2, h3, rest⟩ := hok
  dsimp only at h2 h3
  subst h3
  exact ⟨r, c, hr, hc, hget, h1, h2, rfl, rest⟩

theorem find_all_subset (b : Board) :
    ∀ m ∈ b.find_all_current_moves, m ∈ b.union_moves := by
  intro m hm
  simp only [Board.find_all_current_moves] at hm
  split at hm
  · exact hm
  · split at hm
    · exact (List.mem_filter.mp hm).1
    · have h1 := (List.mem_filter.mp hm).1
      exact (List.mem_filter.mp h1).1

theorem find_all_ok {b : Board} {m : Move} (h : m ∈ b.find_all_current_moves) :
    ∃ r c, r < 8 ∧ c < 8 ∧ b.getRef r c = some ⟨b.current_player, m.piece⟩ ∧
      GenOk b r c b.current_player m.piece m :=
  union_moves_ok (find_all_subset b m h)

theorem valid_mem {b : Board} {m : Move} (hv : b.is_valid_move m = true) :
    m ∈ b.find_all_current_moves := by
  rw [Board.is_valid_move] at hv
  split at hv
  · simp at hv
  · split at hv
    · simpa using hv
    · simp at hv

/-! ### Congruence: everything below `current_player` reads only the grid and
the history, never the turn counter -/

theorem getRef_congr {b₁ b₂ : Board} (hb : b₁.board = b₂.board) (r c : Nat) :
    b₁.getRef r c = b₂.getRef r c := by
  rw [Board.getRef, Board.getRef, hb]

theorem is_free_congr {b₁ b₂ : Board} (hb : b₁.board = b₂.board) (r c : Int) :
    b₁.is_free r c = b₂.is_free r c := by
  rw [Board.is_free, Board.is_free, getRef_congr hb]

theorem pawnDirMoves_congr {b₁ b₂ : Board} (hb : b₁.board = b₂.board)
    (r c : Nat) (color : Color) (kills : Option Bool) (co : Int) :
    pawnDirMoves b₁ r c color kills co = pawnDirMoves b₂ r c color kills co := by
  simp only [pawnDirMoves, is_free_congr hb, getRef_congr hb]

theorem slideQuiet_congr {b₁ b₂ : Board} (hb : b₁.board = b₂.board)
    (fs : Nat × Nat) (color : Color) (emit : Bool) (dr dc : Int) :
    ∀ (fuel : Nat) (r c : Int),
      slideQuiet b₁ fs color emit dr dc fuel r c =
        slideQuiet b₂ fs color emit dr dc fuel r c := by
  intro fuel
  induction fuel with
  | zero => intro r c; rfl
  | succ n ih =>
    intro r c
    rw [slideQuiet, slideQuiet, is_free_congr hb]
    split
    · rw [ih]
    · rfl

theorem slideKills_congr {b₁ b₂ : Board} (hb : b₁.board = b₂.board)
    (fs : Nat × Nat) (color : Color) (kr : PosUncolorPiece) (dr dc : Int) :
    ∀ (fuel : Nat) (r c : Int),
      slideKills b₁ fs color kr dr dc fuel r c =
        slideKills b₂ fs color kr dr dc fuel r c := by
  intro fuel
  induction fuel with
  | zero => intro r c; rfl
  | succ n ih =>
    intro r c
    rw [slideKills, slideKills, is_free_congr hb]
    split
    · rw [ih]
    · rfl

theorem queenDirMoves_congr {b₁ b₂ : Board} (hb : b₁.board = b₂.board)
    (r c : Nat) (color : Color) (kills : Option Bool) (dr dc : Int) :
    queenDirMoves b₁ r c color kills dr dc = queenDirMoves b₂ r c color kills dr dc := by
  simp only [queenDirMoves, slideQuiet_congr hb, getRef_congr hb, is_free_congr hb,
    slideKills_congr hb]

theorem find_moves_congr {b₁ b₂ : Board} (hb : b₁.board = b₂.board)
    (r c : Nat) (kills : Option Bool) :
    b₁.find_moves r c kills = b₂.find_moves r c kills := by
  simp only [Board.find_moves, getRef_congr hb, pawnDirMoves_congr hb,
    queenDirMoves_congr hb]

theorem current_player_congr {b₁ b₂ : Board} (hb : b₁.board = b₂.board)
    (hm : b₁.moves = b₂.moves) : b₁.current_player = b₂.current_player := by
  rw [Board.current_player, Board.current_player, Board.last_move, Board.last_move, hm]
  cases h : b₂.moves.getLast? with
  | none => rfl
  | some m => simp only [find_moves_congr hb]

/-! ### Structure of `push_unchecked` and exactness of `pop` -/

theorem push_board (b : Board) (m : Move) :
    (b.push_unchecked m).board =
      (match m.kill with
        | some k =>
          (b.board.set (m.fromSq.1 * 8 + m.fromSq.2) none).set (k.row * 8 + k.col) none
        | none => b.board.set (m.fromSq.1 * 8 + m.fromSq.2) none).set
        (m.toSq.1 * 8 + m.toSq.2) (some ⟨m.color, m.future_piece⟩) := rfl

theorem push_moves (b : Board) (m : Move) :
    (b.push_unchecked m).moves = b.moves ++ [m] := rfl

theorem push_show (b : Board) (m : Move) :
    (b.push_unchecked m).show_moves_for = b.show_moves_for := rfl

theorem push_rating (b : Board) (m : Move) :
    (b.push_unchecked m).rating = b.rating := rfl

theorem push_turn (b : Board) (m : Move) :
    (b.push_unchecked m).turn =
      if (b.push_unchecked m).current_player ≠ m.color then b.turn + 1 else b.turn := by
  have hcp : (b.push_unchecked m).current_player = (b.push_pre m).current_player :=
    current_player_congr rfl rfl
  rw [hcp]
  rfl

theorem push_last_move (b : Board) (m : Move) :
    (b.push_unchecked m).last_move = some m := by
  rw [Board.last_move, push_moves, List.getLast?_concat]

theorem grid_restore_kill (g : List (Option PlayersPiece)) (fi ki ti : Nat)
    (vF vK : PlayersPiece) (w : Option PlayersPiece)
    (_hFT : fi ≠ ti) (_hKT : ki ≠ ti) (_hKF : ki ≠ fi)
    (hfi : fi < g.length) (hki : ki < g.length) (hti : ti < g.length)
    (hF : g[fi]? = some (some vF)) (hK : g[ki]? = some (some vK))
    (hT : g[ti]? = some none) :
    (((((g.set fi none).set ki none).set ti w).set fi (some vF)).set ki
      (some vK)).set ti none = g := by
  apply List.ext_getElem?
  intro n
  by_cases h1 : ti = n
  · subst h1
    rw [List.getElem?_set_self (by simpa using hti), hT]
  · rw [List.getElem?_set_ne h1]
    by_cases h2 : ki = n
    · subst h2
      rw [List.getElem?_set_self (by simpa using hki), hK]
    · rw [List.getElem?_set_ne h2]
      by_cases h3 : fi = n
      · subst h3
        rw [List.getElem?_set_self (by simpa using hfi), hF]
      · rw [List.getElem?_set_ne h3, List.getElem?_set_ne h1,
          List.getElem?_set_ne h2, List.getElem?_set_ne h3]

theorem grid_restore_nokill (g : List (Option PlayersPiece)) (fi ti : Nat)
    (vF : PlayersPiece) (w : Option PlayersPiece)
    (_hFT : fi ≠ ti) (hfi : fi < g.length) (hti : ti < g.length)
    (hF : g[fi]? = some (some vF)) (hT : g[ti]? = some none) :
    (((g.set fi none).set ti w).set fi (some vF)).set ti none = g := by
  apply List.ext_getElem?
  intro n
  by_cases h1 : ti = n
  · subst h1
    rw [List.getElem?_set_self (by simpa using hti), hT]
  · rw [List.getElem?_set_ne h1]
    by_cases h3 : fi = n
    · subst h3
      rw [List.getElem?_set_self (by simpa using hfi), hF]
    · rw [List.getElem?_set_ne h3, List.getElem?_set_ne h1, List.getElem?_set_ne h3]

theorem board_eq_of_fields {b₁ b₂ : Board} (h1 : b₁.board = b₂.board)
    (h2 : b₁.moves = b₂.moves) (h3 : b₁.turn = b₂.turn)
    (h4 : b₁.show_moves_for = b₂.show_moves_for) (h5 : b₁.rating = b₂.rating) :
    b₁ = b₂ := by
  cases b₁
  cases b₂
  simp_all

theorem pop_push {b : Board} {m : Move} (hlen : b.board.length = 64)
    (hfrom : b.getRef m.fromSq.1 m.fromSq.2 = some ⟨m.color, m.piece⟩)
    (hto : b.getRef m.toSq.1 m.toSq.2 = none)
    (htr : m.toSq.1 < 8) (htc : m.toSq.2 < 8)
    (hkill : ∀ k, m.kill = some k → k.row < 8 ∧ k.col < 8 ∧
      b.getRef k.row k.col = some ⟨m.color.other, k.piece⟩) :
    (b.push_unchecked m).pop = some b := by
  have hfi : m.fromSq.1 * 8 + m.fromSq.2 < b.board.length := lt_length_of_getRef hfrom
  have hti : m.toSq.1 * 8 + m.toSq.2 < b.board.length := by omega
  have hFge : b.board[m.fromSq.1 * 8 + m.fromSq.2]? =
      some (some ⟨m.color, m.piece⟩) := by
    rw [getElem?_of_getRef hfi, hfrom]
  have hTge : b.board[m.toSq.1 * 8 + m.toSq.2]? = some none := by
    rw [getElem?_of_getRef hti, hto]
  have hFT : m.fromSq.1 * 8 + m.fromSq.2 ≠ m.toSq.1 * 8 + m.toSq.2 := by
    intro h
    rw [h, hTge] at hFge
    simp at hFge
  simp only [Board.pop, push_last_move]
  refine congrArg some (board_eq_of_fields ?_ ?_ ?_ ?_ ?_) <;> dsimp only
  · rw [push_board]
    cases hk : m.kill with
    | none =>
      exact grid_restore_nokill _ _ _ _ _ hFT hfi hti hFge hTge
    | some k =>
      obtain ⟨hkr, hkc, hkget⟩ := hkill k hk
      have hki : k.row * 8 + k.col < b.board.length := lt_length_of_getRef hkget
      have hKge : b.board[k.row * 8 + k.col]? =
          some (some ⟨m.color.other, k.piece⟩) := by
        rw [getElem?_of_getRef hki, hkget]
      have hKT : k.row * 8 + k.col ≠ m.toSq.1 * 8 + m.toSq.2 := by
        intro h
        rw [h, hTge] at hKge
        simp at hKge
      have hKF : k.row * 8 + k.col ≠ m.fromSq.1 * 8 + m.fromSq.2 := by
        intro h
        rw [h, hFge] at hKge
        simp only [Option.some.injEq, PlayersPiece.mk.injEq] at hKge
        exact color_other_ne m.color hKge.1.symm
      exact grid_restore_kill _ _ _ _ _ _ _ hFT hKT hKF hfi hki hti hFge hKge hTge
  · rw [push_moves]
    exact List.dropLast_concat
  · rw [push_turn]
    by_cases h : (b.push_unchecked m).current_player ≠ m.color <;> simp [h]
  · exact push_show b m
  · exact push_rating b m

theorem valid_pop_push {b : Board} {m : Move} (hlen : b.board.length = 64)
    (hv : b.is_valid_move m = true) : (b.push_unchecked m).pop = some b := by
  obtain ⟨r, c, hr, hc, hget, hok⟩ := find_all_ok (valid_mem hv)
  obtain ⟨hfromSq, hcolor, hpiece, htr, htc, hto, hpar, hkill⟩ := hok
  apply pop_push hlen ?_ hto htr htc ?_
  · rw [hfromSq]
    dsimp only
    rw [hget, hcolor]
  · intro k hk
    obtain ⟨h1, h2, h3⟩ := hkill k hk
    refine ⟨h1, h2, ?_⟩
    rw [h3, hcolor]

/-! ### The dark-square invariant (claim C8) -/

theorem new_length (lines : Nat) (cfg : RateConfig) :
    (Board.new lines cfg).board.length = 64 := by
  simp [Board.new, Board.empty]

theorem new_moves (lines : Nat) (cfg : RateConfig) :
    (Board.new lines cfg).moves = [] := rfl

theorem getRef_new (lines : Nat) (cfg : RateConfig) (r c : Nat)
    (hr : r < 8) (hc : c < 8) :
    (Board.new lines cfg).getRef r c =
      (if (r + c) % 2 = 0 then
        if r < lines then some ⟨Color.White, Piece.Pawn⟩
        else if 8 - lines ≤ r then some ⟨Color.Black, Piece.Pawn⟩ else none
      else none) := by
  have hidx : r * 8 + c < 64 := by omega
  rw [Board.getRef, Board.new]
  dsimp only
  rw [List.getD_eq_getElem?_getD, List.getElem?_map, List.getElem?_range hidx]
  have h1 : (r * 8 + c) / 8 = r := by omega
  have h2 : (r * 8 + c) % 8 = c := by omega
  simp only [Option.map_some', Option.getD_some, h1, h2]

theorem new_dark (lines : Nat) (cfg : RateConfig) : DarkOnly (Board.new lines cfg) := by
  intro r c hr hc hsome
  rw [getRef_new lines cfg r c hr hc] at hsome
  by_contra h
  rw [if_neg h] at hsome
  simp at hsome

theorem push_length (b : Board) (m : Move) :
    (b.push_unchecked m).board.length = b.board.length := by
  rw [push_board]
  cases m.kill <;> simp

theorem getD_set_self' {α : Type} (l : List α) (i : Nat) (v d : α) (h : i < l.length) :
    (l.set i v).getD i d = v := by
  rw [List.getD_eq_getElem?_getD, List.getElem?_set_self (by simpa using h)]
  rfl

theorem getD_set_ne' {α : Type} (l : List α) (i j : Nat) (v d : α) (h : i ≠ j) :
    (l.set i v).getD j d = l.getD j d := by
  rw [List.getD_eq_getElem?_getD, List.getElem?_set_ne h, ← List.getD_eq_getElem?_getD]

theorem dark_push {b : Board} {m : Move} (hlen : b.board.length = 64)
    (hd : DarkOnly b) (hv : b.is_valid_move m = true) :
    DarkOnly (b.push_unchecked m) := by
  obtain ⟨r0, c0, hr0, hc0, hget, hok⟩ := find_all_ok (valid_mem hv)
  obtain ⟨hfromSq, hcolor, hpiece, htr, htc, hto, hpar, hkill⟩ := hok
  have hfrom_par : (r0 + c0) % 2 = 0 := hd r0 c0 hr0 hc0 (by rw [hget]; rfl)
  intro r c hr hc hsome
  rw [Board.getRef, push_board] at hsome
  by_cases h1 : m.toSq.1 * 8 + m.toSq.2 = r * 8 + c
  · omega
  · have hlen1 : (match m.kill with
        | some k =>
          (b.board.set (m.fromSq.1 * 8 + m.fromSq.2) none).set (k.row * 8 + k.col) none
        | none => b.board.set (m.fromSq.1 * 8 + m.fromSq.2) none).length = 64 := by
      cases m.kill <;> simp [hlen]
    rw [getD_set_ne' _ _ _ _ _ h1] at hsome
    have hfi : m.fromSq.1 * 8 + m.fromSq.2 < b.board.length := by
      apply lt_length_of_getRef (v := ⟨b.current_player, m.piece⟩)
      rw [hfromSq]
      exact hget
    cases hk : m.kill with
    | none =>
      rw [hk] at hsome
      by_cases h3 : m.fromSq.1 * 8 + m.fromSq.2 = r * 8 + c
      · rw [← h3, getD_set_self' _ _ _ _ hfi] at hsome
        simp at hsome
      · rw [getD_set_ne' _ _ _ _ _ h3] at hsome
        exact hd r c hr hc hsome
    | some k =>
      obtain ⟨hk1, hk2, hk3⟩ := hkill k hk
      have hki : k.row * 8 + k.col < b.board.length := lt_length_of_getRef hk3
      rw [hk] at hsome
      by_cases h2 : k.row * 8 + k.col = r * 8 + c
      · rw [← h2, getD_set_self' _ _ _ _ (by simpa using hki)] at hsome
        simp at hsome
      · rw [getD_set_ne' _ _ _ _ _ h2] at hsome
        by_cases h3 : m.fromSq.1 * 8 + m.fromSq.2 = r * 8 + c
        · rw [← h3, getD_set_self' _ _ _ _ hfi] at hsome
          simp at hsome
        · rw [getD_set_ne' _ _ _ _ _ h3] at hsome
          exact hd r c hr hc hsome

theorem pushReach_inv {lines : Nat} {cfg : RateConfig} {b : Board}
    (h : PushReach lines cfg b) : b.board.length = 64 ∧ DarkOnly b := by
  induction h with
  | base => exact ⟨new_length lines cfg, new_dark lines cfg⟩
  | push b m hb hv ih =>
    exact ⟨by rw [push_length]; exact ih.1, dark_push ih.1 ih.2 hv⟩

theorem pushReach_of_ne {lines : Nat} {cfg : RateConfig} {b : Board}
    (h : PushReach lines cfg b) (hne : b.moves ≠ []) :
    ∃ b₀ m, PushReach lines cfg b₀ ∧ b₀.is_valid_move m = true ∧
      b = b₀.push_unchecked m := by
  cases h with
  | base => exact absurd (new_moves lines cfg) hne
  | push b₀ m hb hv => exact ⟨b₀, m, hb, hv, rfl⟩

theorem reach_pushReach {lines : Nat} {cfg : RateConfig} {b : Board}
    (h : Reachable lines cfg b) : PushReach lines cfg b := by
  induction h with
  | base => exact PushReach.base
  | push b m hb hv ih => exact PushReach.push b m ih hv
  | pop b b' hb hpop ih =>
    have hne : b.moves ≠ [] := by
      intro h0
      rw [Board.pop, Board.last_move, h0] at hpop
      simp at hpop
    obtain ⟨b₀, m, h₀, hv, rfl⟩ := pushReach_of_ne ih hne
    have hp := valid_pop_push (pushReach_inv h₀).1 hv
    rw [hp] at hpop
    injection hpop with h'
    rw [← h']
    exact h₀

/-! ### Search lemmas (claims C1, C10) -/

theorem optionMapM_congr {α β : Type} {f g : α → Option β} (l : List α)
    (h : ∀ a ∈ l, f a = g a) : l.mapM f = l.mapM g := by
  induction l with
  | nil => rfl
  | cons a l ih =>
    rw [List.mapM_cons, List.mapM_cons, h a (by simp),
      ih (fun x hx => h x (by simp [hx]))]

theorem optionMapM_isSome {α β : Type} {f : α → Option β} {l : List α}
    (h : ∀ a ∈ l, (f a).isSome = true) :
    ∃ l', l.mapM f = some l' ∧ l'.length = l.length := by
  induction l with
  | nil => exact ⟨[], rfl, rfl⟩
  | cons a l ih =>
    obtain ⟨l', hl', hlen⟩ := ih (fun x hx => h x (by simp [hx]))
    obtain ⟨v, hv⟩ := Option.isSome_iff_exists.mp (h a (by simp))
    refine ⟨v :: l', ?_, by simp [hlen]⟩
    rw [List.mapM_cons, hv, hl']
    rfl

theorem maxQ_isSome {l : List ℚ} (h : l ≠ []) : (maxQ l).isSome = true := by
  cases l with
  | nil => exact absurd rfl h
  | cons x xs => rfl

theorem winner_none_moves_ne {b : Board} (hw : b.winner = none) :
    b.find_all_current_moves ≠ [] := by
  intro h0
  rw [Board.winner, h0] at hw
  split_ifs at hw <;> simp_all

theorem push_moves_ne (b : Board) (m : Move) : (b.push_unchecked m).moves ≠ [] := by
  rw [push_moves]
  simp

theorem last_player_of_ne {b : Board} (h : b.moves ≠ []) :
    ∃ c, b.last_player = some c := by
  rw [Board.last_player, Board.last_move]
  obtain ⟨m, hm⟩ := Option.isSome_iff_exists.mp (List.getLast?_isSome.mpr h)
  exact ⟨m.color, by rw [hm]; rfl⟩

theorem rate_inner_isSome (player : Color) :
    ∀ (fuel : Nat) (b : Board) (depth : Nat), b.moves ≠ [] →
      (Board.rate_inner player fuel b depth).isSome = true := by
  intro fuel
  induction fuel with
  | zero => intro b depth _; rfl
  | succ n ih =>
    intro b depth hne
    rw [Board.rate_inner]
    cases hw : b.winner with
    | some w => rfl
    | none =>
      by_cases hd : depth < b.rating.max_depth
      · rw [if_pos hd]
        obtain ⟨lp, hlp⟩ := last_player_of_ne hne
        obtain ⟨l', hl', hlen⟩ := optionMapM_isSome (l := b.find_all_current_moves)
          (f := fun m =>
            match b.last_player with
            | none => none
            | some _ =>
              (Board.rate_inner player n (b.push_unchecked m)
                (childDepth b.continuation depth)).map
                (fun v => (-v) * childSign b.continuation))
          (by
            intro m _
            rw [hlp]
            dsimp only
            simp only [Option.isSome_map']
            exact ih (b.push_unchecked m) _ (push_moves_ne b m))
        rw [hl']
        have hne' : l' ≠ [] := by
          intro h0
          rw [h0] at hlen
          exact winner_none_moves_ne hw (List.length_eq_zero.mp hlen.symm)
        exact maxQ_isSome hne'
      · rw [if_neg hd]
        rfl

theorem rate_inner_none_of_empty (player : Color) (fuel : Nat) {b : Board}
    (h0 : b.moves = []) (hw : b.winner = none) (hd : 0 < b.rating.max_depth) :
    Board.rate_inner player (fuel + 1) b 0 = none := by
  have hlp : b.last_player = none := by
    rw [Board.last_player, Board.last_move, h0]
    rfl
  simp only [Board.rate_inner, hw, if_pos hd, hlp]
  cases hm : b.find_all_current_moves with
  | nil => rfl
  | cons a l =>
    have hnone : (a :: l).mapM (fun _ : Move => (none : Option ℚ)) = none := rfl
    rw [hnone]
    rfl

theorem rate_none_of_empty {b : Board} (player : Color) (h0 : b.moves = [])
    (hw : b.winner = none) (hd : 0 < b.rating.max_depth) : b.rate player = none := by
  rw [Board.rate]
  have h66 : (b.rating.max_depth + 1) * 66 = ((b.rating.max_depth + 1) * 66 - 1) + 1 := by
    omega
  rw [h66]
  exact rate_inner_none_of_empty player _ h0 hw hd

/-! ### `max_by_key` tie-breaking (claim C2) -/

theorem mem_of_getLast?_eq {α : Type} {l : List α} {a : α}
    (h : l.getLast? = some a) : a ∈ l := by
  obtain ⟨hne, heq⟩ := List.mem_getLast?_eq_getLast (Option.mem_def.mpr h)
  rw [heq]
  exact List.getLast_mem hne

theorem lastMaxBy_mem {l : List (Move × ℚ)} {p : Move × ℚ}
    (h : lastMaxBy l = some p) : p ∈ l ∧ ∀ q ∈ l, q.2 ≤ p.2 := by
  rw [lastMaxBy] at h
  have hmem := mem_of_getLast?_eq h
  rcases List.mem_filter.mp hmem with ⟨h1, h2⟩
  refine ⟨h1, fun q hq => ?_⟩
  simpa using List.all_eq_true.mp h2 q hq

theorem exists_max (l : List (Move × ℚ)) (h : l ≠ []) :
    ∃ p ∈ l, ∀ q ∈ l, q.2 ≤ p.2 := by
  induction l with
  | nil => exact absurd rfl h
  | cons a l ih =>
    cases l with
    | nil => exact ⟨a, by simp, by simp⟩
    | cons b t =>
      obtain ⟨p, hp, hmax⟩ := ih (by simp)
      by_cases hle : p.2 ≤ a.2
      · refine ⟨a, by simp, fun q hq => ?_⟩
        rcases List.mem_cons.mp hq with rfl | hq
        · exact le_refl _
        · exact le_trans (hmax q hq) hle
      · refine ⟨p, List.mem_cons_of_mem _ hp, fun q hq => ?_⟩
        rcases List.mem_cons.mp hq with rfl | hq
        · exact le_of_not_le hle
        · exact hmax q hq

theorem lastMaxBy_ne_none {l : List (Move × ℚ)} (h : l ≠ []) : lastMaxBy l ≠ none := by
  obtain ⟨p, hp, hmax⟩ := exists_max l h
  rw [lastMaxBy]
  intro h0
  have hmem : p ∈ List.filter (fun p => l.all (fun q => decide (q.2 ≤ p.2))) l :=
    List.mem_filter.mpr ⟨hp, List.all_eq_true.mpr (fun q hq => by simpa using hmax q hq)⟩
  have hsome := List.getLast?_isSome.mpr (List.ne_nil_of_mem hmem)
  rw [h0] at hsome
  simp at hsome

theorem maxByKeyLast_append (l : List (Move × ℚ)) (x : Move × ℚ) :
    maxByKeyLast (l ++ [x]) =
      match maxByKeyLast l with
      | none => some x
      | some q => if q.2 ≤ x.2 then some x else some q := by
  rw [maxByKeyLast, maxByKeyLast, List.foldl_append]
  rfl

theorem lastMaxBy_append_max {l : List (Move × ℚ)} {x : Move × ℚ}
    (hA : ∀ q ∈ l, q.2 ≤ x.2) : lastMaxBy (l ++ [x]) = some x := by
  rw [lastMaxBy, List.filter_append]
  have hx : ((l ++ [x]).all (fun q => decide (q.2 ≤ x.2))) = true := by
    rw [List.all_eq_true]
    intro q hq
    rcases List.mem_append.mp hq with hq | hq
    · simpa using hA q hq
    · simp only [List.mem_singleton] at hq
      subst hq
      simp
  rw [List.filter_singleton]
  simp only [hx, cond_true]
  rw [List.getLast?_concat]

theorem lastMaxBy_append_lt {l : List (Move × ℚ)} {x q₀ : Move × ℚ}
    (hq₀ : q₀ ∈ l) (hlt : x.2 < q₀.2) : lastMaxBy (l ++ [x]) = lastMaxBy l := by
  rw [lastMaxBy, lastMaxBy, List.filter_append, List.filter_singleton]
  have hx : ((l ++ [x]).all (fun q => decide (q.2 ≤ x.2))) = false := by
    rw [Bool.eq_false_iff]
    intro hall
    exact absurd (by simpa using List.all_eq_true.mp hall q₀ (List.mem_append_left _ hq₀))
      (not_le.mpr hlt)
  simp only [hx, cond_false, List.append_nil]
  congr 1
  apply List.filter_congr
  intro p hp
  rw [List.all_append]
  by_cases hmax : l.all (fun q => decide (q.2 ≤ p.2)) = true
  · rw [hmax]
    have hx2 : x.2 ≤ p.2 :=
      le_trans (le_of_lt hlt) (by simpa using List.all_eq_true.mp hmax q₀ hq₀)
    simp [hx2]
  · rw [Bool.eq_false_iff.mpr hmax]
    simp

theorem maxByKeyLast_eq (l : List (Move × ℚ)) : maxByKeyLast l = lastMaxBy l := by
  induction l using List.reverseRecOn with
  | nil => rfl
  | append_singleton l x ih =>
    rw [maxByKeyLast_append, ih]
    by_cases hA : ∀ q ∈ l, q.2 ≤ x.2
    · rw [lastMaxBy_append_max hA]
      cases hl : lastMaxBy l with
      | none => rfl
      | some q =>
        show (if q.2 ≤ x.2 then some x else some q) = some x
        rw [if_pos (hA q (lastMaxBy_mem hl).1)]
    · push_neg at hA
      obtain ⟨q₀, hq₀, hlt⟩ := hA
      rw [lastMaxBy_append_lt hq₀ hlt]
      cases hl : lastMaxBy l with
      | none => exact absurd hl (lastMaxBy_ne_none (List.ne_nil_of_mem hq₀))
      | some q =>
        show (if q.2 ≤ x.2 then some x else some q) = some q
        rw [if_neg (not_le.mpr (lt_of_lt_of_le hlt ((lastMaxBy_mem hl).2 q₀ hq₀)))]

/-! ### Evaluator decomposition (claim C9) -/

theorem centered_eq : ∀ v : Nat, v < 8 → centered v = specCentered v := by decide

theorem position_rate_eq (w : PositionRates) (r c : Nat) (hr : r < 8) (hc : c < 8)
    (color : Color) (p : Piece) :
    w.rate r c color p =
      (match p with
       | Piece.Pawn => (specPawnAdvance color r : ℚ) * w.pawn
       | Piece.Queen =>
         ((specCentered (r : Int) + specCentered (c : Int) : Int) : ℚ) * w.queen) := by
  cases p
  case Pawn =>
    cases color
    case White =>
      simp only [PositionRates.rate, specPawnAdvance]
      congr 1
      push_cast
      ring
    case Black =>
      simp only [PositionRates.rate, specPawnAdvance]
  case Queen =>
    simp only [PositionRates.rate]
    rw [centered_eq r hr, centered_eq c hc]
    push_cast
    ring

theorem rate_player_eq (b : Board) (player : Color) :
    b.rate_player player =
      specMaterialTerm b.rating.pieces b player + specPosTerm b.rating.position b player +
        specThreatTerm b.rating.kills b player := by
  rw [Board.rate_player, specMaterialTerm, specPosTerm, specThreatTerm]
  have hpos : ((b.all_players_pieces player).map
      (fun p => b.rating.position.rate p.1 p.2.1 player p.2.2)).sum =
      ((b.all_players_pieces player).map (fun p =>
        match p.2.2 with
        | Piece.Pawn => (specPawnAdvance player p.1 : ℚ) * b.rating.position.pawn
        | Piece.Queen =>
          ((specCentered (p.1 : Int) + specCentered (p.2.1 : Int) : Int) : ℚ) *
            b.rating.position.queen)).sum := by
    congr 1
    apply List.map_congr_left
    intro a ha
    obtain ⟨r, c, p⟩ := a
    obtain ⟨h1, h2, _⟩ := mem_all_players_pieces ha
    exact position_rate_eq b.rating.position r c h1 h2 player p
  have hkill : ((b.all_players_pieces player).map
      (fun p =>
        match b.find_moves p.1 p.2.1 (some true) with
        | some ms => (ms.map (fun m =>
            match m.kill with
            | some k => b.rating.kills.rate k.piece
            | none => 0)).sum
        | none => 0)).sum =
      ((b.all_players_pieces player).map (fun p =>
        (((b.find_moves p.1 p.2.1 (some true)).getD []).map (fun m =>
          match m.kill with
          | some k => b.rating.kills.rate k.piece
          | none => 0)).sum)).sum := by
    congr 1
    apply List.map_congr_left
    intro a _
    cases hfm : b.find_moves a.1 a.2.1 (some true) with
    | none => simp
    | some ms => simp
  rw [hpos, hkill]
  ring

theorem specPosTerm_zero (b : Board) (p : Color) : specPosTerm ⟨0, 0⟩ b p = 0 := by
  rw [specPosTerm]
  apply List.sum_eq_zero
  intro x hx
  obtain ⟨a, _, rfl⟩ := List.mem_map.mp hx
  cases a.2.2 <;> simp

theorem specMaterialTerm_zero (b : Board) (p : Color) : specMaterialTerm ⟨0, 0⟩ b p = 0 := by
  rw [specMaterialTerm]
  apply List.sum_eq_zero
  intro x hx
  obtain ⟨a, _, rfl⟩ := List.mem_map.mp hx
  cases a.2.2 <;> simp [PieceRates.rate]

theorem specThreatTerm_zero (b : Board) (p : Color) : specThreatTerm ⟨0, 0⟩ b p = 0 := by
  rw [specThreatTerm]
  apply List.sum_eq_zero
  intro x hx
  obtain ⟨a, _, rfl⟩ := List.mem_map.mp hx
  apply List.sum_eq_zero
  intro y hy
  obtain ⟨m, _, rfl⟩ := List.mem_map.mp hy
  cases m.kill with
  | none => simp
  | some k => cases hk : k.piece <;> simp [KillRates.rate, hk]

/-! ### Evaluation helpers for the all-zero configuration -/

theorem rate_inner_leaf (player : Color) (fuel depth : Nat) {b : Board}
    (hw : b.winner = none) (hd : ¬depth < b.rating.max_depth) :
    Board.rate_inner player (fuel + 1) b depth = some b.rate_current_board := by
  simp only [Board.rate_inner, hw, if_neg hd]

theorem rate_leaf {b : Board} (player : Color) (hw : b.winner = none)
    (hd : b.rating.max_depth = 0) : b.rate player = some b.rate_current_board := by
  rw [Board.rate, hd]
  show Board.rate_inner player (65 + 1) b 0 = _
  exact rate_inner_leaf player 65 0 hw (by rw [hd]; omega)

theorem rate_player_zero {b : Board} (player : Color)
    (hp : b.rating.pieces = ⟨0, 0⟩) (hpos : b.rating.position = ⟨0, 0⟩)
    (hk : b.rating.kills = ⟨0, 0⟩) : b.rate_player player = 0 := by
  rw [rate_player_eq, hp, hpos, hk, specMaterialTerm_zero, specPosTerm_zero,
    specThreatTerm_zero]
  ring

theorem rate_current_zero {b : Board}
    (hp : b.rating.pieces = ⟨0, 0⟩) (hpos : b.rating.position = ⟨0, 0⟩)
    (hk : b.rating.kills = ⟨0, 0⟩) : b.rate_current_board = 0 := by
  rw [Board.rate_current_board, rate_player_zero _ hp hpos hk,
    rate_player_zero _ hp hpos hk]
  ring

/-! ## Claim theorems -/

/-- Claim C1, counterexample: on the explored position `B0` (non-empty
history, no winner, positive search depth) Black's only legal move is the
capture `m0`, after which Black is STILL to move (the chain continues) — yet
the depth `rate_inner` passes to the recursive call for `m0` at depth 0 is 1,
not 0: the code's `continuation` flag looks at the position (current player
versus last mover), not at whether the applied move changes the mover. -/
theorem C1_counterexample :
    m0 ∈ B0.find_all_current_moves ∧
    B0.winner = none ∧
    0 < B0.rating.max_depth ∧
    B0.moves ≠ [] ∧
    (B0.push_unchecked m0).current_player = B0.current_player ∧
    childDepth B0.continuation 0 = 1 := by
  refine ⟨by decide, by decide, by decide, by decide, by decide, by decide⟩

/-- Claim C1, amended: at a search node with no winner, remaining depth, and a
non-empty history whose last mover is `lp`, `rate_inner` explores EVERY move
at depth `depth` and negates its value exactly when the node itself is
mid-chain (`current_player = lp`); otherwise every move goes to `depth + 1`
unnegated — in both cases independent of the move applied. -/
theorem C1_thm (player : Color) (fuel depth : Nat) (b : Board) (lp : Color)
    (hw : b.winner = none) (hd : depth < b.rating.max_depth)
    (hlp : b.last_player = some lp) :
    Board.rate_inner player (fuel + 1) b depth =
      ((b.find_all_current_moves).mapM (fun m =>
        (Board.rate_inner player fuel (b.push_unchecked m)
          (if b.current_player = lp then depth else depth + 1)).map
          (fun v => if b.current_player = lp then -v else v))).bind maxQ := by
  simp only [Board.rate_inner, hw, if_pos hd, hlp]
  congr 1
  apply optionMapM_congr
  intro m _
  have hcont : b.continuation = decide (b.current_player = lp) := by
    rw [Board.continuation, hlp]
  rw [hcont]
  by_cases h : b.current_player = lp
  · simp [h, childDepth, childSign]
  · simp [h, childDepth, childSign, neg_mul_neg]

/-- Claim C1, witness: the amended step equation evaluated on `B0`. -/
theorem C1_witness :
    B0.winner = none ∧ 0 < B0.rating.max_depth ∧
    B0.last_player = some Color.White ∧
    Board.rate_inner Color.Black 1 B0 0 =
      ((B0.find_all_current_moves).mapM (fun m =>
        (Board.rate_inner Color.Black 0 (B0.push_unchecked m)
          (if B0.current_player = Color.White then 0 else 0 + 1)).map
          (fun v => if B0.current_player = Color.White then -v else v))).bind maxQ :=
  ⟨by decide, by decide, by decide,
    C1_thm Color.Black 0 0 B0 Color.White (by decide) (by decide) (by decide)⟩

/-- Claim C2, counterexample: on `B2` (all-zero weights, depth 0) the two
generated moves `m31` and `m33` tie with key 0, and `find_best_move` returns
the LAST one in generation order, `m33`, not the first, `m31` — Rust's
`Iterator::max_by_key` keeps the last maximal element on ties. -/
theorem C2_counterexample :
    B2.find_all_current_moves = [m31, m33] ∧
    B2.best_keyed = some [(m31, 0), (m33, 0)] ∧
    m31 ≠ m33 ∧
    B2.find_best_move = some m33 := by
  have hrate : ∀ m : Move, (B2.push_unchecked m).winner = none →
      (B2.push_unchecked m).rate (B2.push_unchecked m).current_player = some 0 := by
    intro m hw
    rw [rate_leaf _ hw rfl, rate_current_zero rfl rfl rfl]
  have hkeyed : B2.best_keyed = some [(m31, 0), (m33, 0)] := by
    have hfa : B2.find_all_current_moves = [m31, m33] := by decide
    rw [Board.best_keyed, hfa, List.mapM_cons, List.mapM_cons, List.mapM_nil,
      hrate m31 (by decide), hrate m33 (by decide)]
    simp
  refine ⟨by decide, hkeyed, by decide, ?_⟩
  rw [Board.find_best_move, hkeyed]
  show (maxByKeyLast [(m31, 0), (m33, 0)]).map (·.1) = some m33
  rw [maxByKeyLast]
  simp [List.foldl]

/-- Claim C2, amended: `find_best_move` returns the LAST move of maximal key
in generation order — the last entry of the keyed list whose key is greater
than or equal to every key. -/
theorem C2_thm (b : Board) :
    b.find_best_move = b.best_keyed.bind (fun l => (lastMaxBy l).map (·.1)) := by
  rw [Board.find_best_move]
  cases hk : b.best_keyed with
  | none => rfl
  | some l => simp [maxByKeyLast_eq]

/-- Claim C3: for every reachable board and every legal move, applying the
move (`push_unsafe`) and undoing (`pop`) restores the board exactly — grid,
history, turn counter and all derived state. -/
theorem C3_thm (lines : Nat) (cfg : RateConfig) (b : Board) (m : Move)
    (hr : Reachable lines cfg b) (hv : b.is_valid_move m = true) :
    (b.push_unchecked m).pop = some b :=
  valid_pop_push (pushReach_inv (reach_pushReach hr)).1 hv

/-- Claim C3, witness: push/pop of a concrete legal opening move on the
two-row starting board. -/
theorem C3_witness :
    (Board.new 2 cfg1).is_valid_move mW = true ∧
    ((Board.new 2 cfg1).push_unchecked mW).pop = some (Board.new 2 cfg1) :=
  ⟨by decide, C3_thm 2 cfg1 (Board.new 2 cfg1) mW Reachable.base (by decide)⟩

/-- Claim C4, counterexample: on `B4` (White queen and White pawn, no capture
anywhere) the set remaining after the capture filter contains a Queen move,
yet the returned move list also contains a Pawn move — the queen-priority
filter runs only when captures exist. -/
theorem C4_counterexample :
    Move.contains_piece_move Piece.Queen (specCaptureFilter B4.union_moves) = true ∧
    Move.contains_piece_move Piece.Pawn B4.find_all_current_moves = true := by
  refine ⟨by decide, by decide⟩

/-- Claim C4, amended: `find_all_current_moves` returns the unfiltered union
when no generated move is a capture; when a capture exists it keeps only
captures, and then only Queen captures if any capture is a Queen's. -/
theorem C4_thm (b : Board) :
    b.find_all_current_moves =
      if Move.contains_killer_move b.union_moves then
        (if Move.contains_piece_move Piece.Queen (Move.filter_killer_moves b.union_moves)
         then Move.filter_piece_moves Piece.Queen (Move.filter_killer_moves b.union_moves)
         else Move.filter_killer_moves b.union_moves)
      else b.union_moves := by
  by_cases h1 : Move.contains_killer_move b.union_moves = true
  · by_cases h2 : Move.contains_piece_move Piece.Queen
        (Move.filter_killer_moves b.union_moves) = true
    · simp [Board.find_all_current_moves, h1, h2]
    · simp [Board.find_all_current_moves, h1, h2]
  · simp [Board.find_all_current_moves, h1]

/-- Claim C5: if any square of the side to move yields a capture, the list
returned by `find_all_current_moves` contains zero non-capturing moves. -/
theorem C5_thm (b : Board) (r c : Nat) (p : Piece) (m' : Move)
    (hp : (r, c, p) ∈ b.all_players_pieces b.current_player)
    (hm : m' ∈ (b.find_moves r c none).getD [])
    (hk : m'.kill.isSome = true) :
    AllKillers b.find_all_current_moves := by
  have hmem : m' ∈ b.union_moves := by
    rw [Board.union_moves]
    exact List.mem_flatMap.mpr ⟨(r, c, p), hp, hm⟩
  have hck : Move.contains_killer_move b.union_moves = true := by
    rw [Move.contains_killer_move, List.any_eq_true]
    exact ⟨m', hmem, hk⟩
  intro m hmem'
  simp only [Board.find_all_current_moves, hck, Bool.not_true, Bool.false_eq_true,
    if_false] at hmem'
  split at hmem'
  · exact (List.mem_filter.mp hmem').2
  · exact (List.mem_filter.mp (List.mem_filter.mp hmem').1).2

/-- Claim C5, witness: on `B5` White's pawn at (2,2) can capture, and every
returned move is a capture. -/
theorem C5_witness :
    ((2, 2, Piece.Pawn) ∈ B5.all_players_pieces B5.current_player) ∧
    m5 ∈ (B5.find_moves 2 2 none).getD [] ∧
    m5.kill.isSome = true ∧
    AllKillers B5.find_all_current_moves :=
  ⟨by decide, by decide, by decide,
    C5_thm B5 2 2 Piece.Pawn m5 (by decide) (by decide) (by decide)⟩

/-- Claim C6: `current_player` is exactly the spec's derivation — White on
empty history; the last mover again iff the last move was a non-promoting
capture whose landing square still has a capture; the other color otherwise. -/
theorem C6_thm (b : Board) : b.current_player = specCurrentPlayer b := by
  rw [Board.current_player, specCurrentPlayer, Board.last_move]
  cases h : b.moves.getLast? with
  | none => rfl
  | some m =>
    have hc : (m.continues &&
        !((b.find_moves m.toSq.1 m.toSq.2 (some true)).getD []).isEmpty) =
        (m.kill.isSome && (!m.is_upgrade && hasCaptureFrom b m.toSq)) := by
      rw [Move.continues, hasCaptureFrom, Bool.and_assoc]
    simp only [hc]

/-- Claim C7: `winner` is exactly the spec's case split — the opponent of a
side with no pieces, else the opponent of a side to move with no legal moves,
else `none`. -/
theorem C7_thm (b : Board) : b.winner = specWinner b := by
  simp only [Board.winner, specWinner, List.isEmpty_iff]

/-- Claim C8: every board reachable from `Board::new` by legal pushes and
matching pops has pieces only on squares with even `row + col`. -/
theorem C8_thm (lines : Nat) (cfg : RateConfig) (b : Board)
    (hr : Reachable lines cfg b) : DarkOnly b :=
  (pushReach_inv (reach_pushReach hr)).2

/-- Claim C8, witness: the dark-square invariant on the two-row starting
board after a concrete legal push. -/
theorem C8_witness : DarkOnly ((Board.new 2 cfg1).push_unchecked mW) :=
  C8_thm 2 cfg1 ((Board.new 2 cfg1).push_unchecked mW)
    (Reachable.push (Board.new 2 cfg1) mW Reachable.base (by decide))

/-- Claim C9: `rate_current_board` is `score(mover) - score(opponent)` where
`score` decomposes into the spec's material, positional (advance rows for
pawns, symmetric center distance per axis for queens) and capture-threat
sums; each term with zero weights contributes nothing. -/
theorem C9_thm (b : Board) (p : Color) :
    b.rate_current_board =
      specScore b b.current_player - specScore b b.current_player.other ∧
    specPosTerm ⟨0, 0⟩ b p = 0 ∧ specMaterialTerm ⟨0, 0⟩ b p = 0 ∧
    specThreatTerm ⟨0, 0⟩ b p = 0 := by
  refine ⟨?_, specPosTerm_zero b p, specMaterialTerm_zero b p, specThreatTerm_zero b p⟩
  rw [Board.rate_current_board, rate_player_eq, rate_player_eq, specScore, specScore]

/-- Claim C10: on a board with empty history, no winner and positive
`max_depth`, `rate` hits the `last_player().expect(...)` panic (modelled as
`none`); with a non-empty history — which `find_best_move` establishes by
pushing each candidate before rating — the search never panics at any fuel. -/
theorem C10_thm (b₁ b₂ b₃ : Board) (p₁ p₂ : Color) (m₃ : Move) (fuel depth : Nat)
    (h1 : b₁.moves = []) (h2 : b₁.winner = none) (h3 : 0 < b₁.rating.max_depth)
    (h4 : b₂.moves ≠ []) :
    b₁.rate p₁ = none ∧
    (Board.rate_inner p₂ fuel b₂ depth).isSome = true ∧
    (Board.rate_inner p₂ fuel (b₃.push_unchecked m₃) depth).isSome = true :=
  ⟨rate_none_of_empty p₁ h1 h2 h3, rate_inner_isSome p₂ fuel b₂ depth h4,
    rate_inner_isSome p₂ fuel (b₃.push_unchecked m₃) depth (push_moves_ne b₃ m₃)⟩

/-- Claim C10, witness: the fresh two-row board panics under `rate`, while the
search from `B0` (one move on record) and from a pushed board stays total. -/
theorem C10_witness :
    (Board.new 2 cfg1).moves = [] ∧ (Board.new 2 cfg1).winner = none ∧
    0 < (Board.new 2 cfg1).rating.max_depth ∧ B0.moves ≠ [] ∧
    ((Board.new 2 cfg1).rate Color.White = none ∧
      (Board.rate_inner Color.Black 3 B0 0).isSome = true ∧
      (Board.rate_inner Color.Black 3 (B2.push_unchecked m31) 0).isSome = true) :=
  ⟨rfl, by decide, by decide, by decide,
    C10_thm (Board.new 2 cfg1) B0 B2 Color.White Color.Black m31 3 0 rfl
      (by decide) (by decide) (by decide)⟩

end Checkers
